import Mathlib

/-!
# LrcKit: subtitle parsing and LRC emission

A shallow embedding of the subtitle engine of `app.go`:

* the timestamp codec (`timestampRegex`, `parseDuration`, `parseTimeLine`,
  `formatLrcTimestamp`),
* the tag stripper (`removeTags`),
* the line-oriented block parser (`parseSubtitleFile`),
* the LRC emitter and the output path computation of `ConvertVtt`.

Go strings are modelled as lists of Unicode code points (`Str`).  Go `int` and
`int64` are 64-bit two's complement integers, modelled as `Int` with explicit
wrap-around (`wrap64`).  The regular expressions of the program are
modelled by matchers written out for the specific patterns; each matcher
documents why it agrees with leftmost-first regular expression search.
-/

namespace LrcKit

/-- A Go string, as its sequence of code points. -/
abbrev Str := List Char

/-! ## 64-bit integers -/

/-- Reduction of an integer to the signed 64-bit range (two's complement). -/
def wrap64 (x : Int) : Int := (x + 2 ^ 63) % 2 ^ 64 - 2 ^ 63

/-- Addition on `int64`. -/
def add64 (a b : Int) : Int := wrap64 (a + b)

/-- Multiplication on `int64`. -/
def mul64 (a b : Int) : Int := wrap64 (a * b)

/-- The largest `int64`. -/
def maxInt64 : Int := 2 ^ 63 - 1

/-- The smallest `int64`. -/
def minInt64 : Int := -(2 ^ 63)

/-! ## Library functions on strings -/

/-- The class `\d` of Go regular expressions: the ASCII digits. -/
def isDigit (c : Char) : Bool := decide ('0' ≤ c) && decide (c ≤ '9')

/-- Value of an ASCII digit. -/
def digitVal (c : Char) : Nat := c.toNat - 48

/-- Go `unicode.IsSpace`: the code points `strings.TrimSpace` removes. -/
def isSpace (c : Char) : Bool :=
  let n := c.toNat
  (9 ≤ n && n ≤ 13) || n == 0x20 || n == 0x85 || n == 0xA0 || n == 0x1680 ||
    (0x2000 ≤ n && n ≤ 0x200A) || n == 0x2028 || n == 0x2029 || n == 0x202F ||
    n == 0x205F || n == 0x3000

/-- Go `strings.TrimSpace`: leading and trailing white space removed. -/
def trimSpace (s : Str) : Str :=
  ((s.dropWhile isSpace).reverse.dropWhile isSpace).reverse

/-- Go `strings.HasPrefix`. -/
def hasPrefix : Str → Str → Bool
  | _, [] => true
  | [], _ :: _ => false
  | c :: s, p :: ps => c == p && hasPrefix s ps

/-- Go `strings.HasSuffix`. -/
def hasSuffix (s suf : Str) : Bool := hasPrefix s.reverse suf.reverse

/-- Go `strings.Contains`: `sub` occurs in `s` as a contiguous substring. -/
def containsStr : Str → Str → Bool
  | [], sub => hasPrefix [] sub
  | c :: s, sub => hasPrefix (c :: s) sub || containsStr s sub

/-- Go `strings.Join`. -/
def joinStr (parts : List Str) (sep : Str) : Str :=
  match parts with
  | [] => []
  | [p] => p
  | p :: q :: rest => p ++ sep ++ joinStr (q :: rest) sep

/-- Go `strings.TrimSuffix`: `s` without the trailing `suf`, or `s` itself
when `s` does not end in `suf`. -/
def trimSuffix (s suf : Str) : Str :=
  if hasSuffix s suf then s.take (s.length - suf.length) else s

/-- The digit loop of Go `strconv.ParseUint` in base 10 with 64 bits: `none`
for a syntax error (result 0), `some (v, false)` for the value `v`, and
`some (_, true)` as soon as the value leaves the unsigned 64-bit range. -/
def parseUintLoop : Nat → Str → Option (Nat × Bool)
  | n, [] => some (n, false)
  | n, c :: t =>
    if !isDigit c then none
    else if 2 ^ 64 ≤ n * 10 + digitVal c then some (2 ^ 64 - 1, true)
    else parseUintLoop (n * 10 + digitVal c) t

/-- Go `strconv.Atoi` on a 64-bit platform, the error result dropped as the
callers do (`h, _ := strconv.Atoi(..)`): 0 for a syntax error (including the
empty string), the value saturated to the `int64` range otherwise. -/
def atoi (s : Str) : Int :=
  match s with
  | [] => 0
  | c :: t =>
    let neg : Bool := c == '-'
    let body : Str := if c == '-' || c == '+' then t else s
    if body.isEmpty then 0
    else
      match parseUintLoop 0 body with
      | none => 0
      | some (v, _) =>
        if neg then (if 2 ^ 63 < v then minInt64 else -(v : Int))
        else (if 2 ^ 63 ≤ v then maxInt64 else (v : Int))

/-- The decimal digits of a natural number, as `fmt` prints them. -/
def decimal (n : Nat) : Str := Nat.toDigits 10 n

/-- Left padding with `'0'` up to `width` characters. -/
def zeroPad (width : Nat) (s : Str) : Str :=
  List.replicate (width - s.length) '0' ++ s

/-- Go `fmt.Sprintf("%02d", n)` for an `int64`: with the zero flag the width
becomes the minimum number of digits, one less when a sign is printed. The
result always has at least two characters, so no space padding follows. -/
def sprintf02d (n : Int) : Str :=
  if n < 0 then '-' :: zeroPad 1 (decimal n.natAbs) else zeroPad 2 (decimal n.natAbs)

/-! ## Timestamp codec -/

/-- The part `(\d{2}):(\d{2})[.,](\d{3})` of `timestampRegex`, matched at the
start of `s`: the three groups, the separator and the text after the match. -/
def matchCore (s : Str) : Option (Str × Str × Char × Str × Str) :=
  match s with
  | m1 :: m2 :: c :: s1 :: s2 :: sep :: f1 :: f2 :: f3 :: rest =>
    if isDigit m1 && isDigit m2 && c == ':' && isDigit s1 && isDigit s2 &&
        (sep == '.' || sep == ',') && isDigit f1 && isDigit f2 && isDigit f3
    then some ([m1, m2], [s1, s2], sep, [f1, f2, f3], rest)
    else none
  | _ => none

/-- Submatches of one match: the whole match and the four groups. -/
def submatches (h : Str) (r : Str × Str × Char × Str × Str) : List Str :=
  [(if h.isEmpty then [] else h ++ [':']) ++ r.1 ++ [':'] ++ r.2.1 ++ [r.2.2.1] ++ r.2.2.2.1,
    h, r.1, r.2.1, r.2.2.2.1]

/-- A match of `timestampRegex = (?:(\d+):)?(\d{2}):(\d{2})[.,](\d{3})`
starting exactly at the start of `s`: the submatches and the text after the
match.  The optional hour group is tried first (it is greedy): `\d+` takes the
whole run of digits, which must be followed by `:`; giving digits back cannot
help, because the character after a shorter run is a digit and not `:`.  When
that fails the pattern is tried without the hour group, which then is the
empty string in the submatches. -/
def matchTimestampAt (s : Str) : Option (List Str × Str) :=
  let ds := s.takeWhile isDigit
  let withHours : Option (List Str × Str) :=
    match ds, s.dropWhile isDigit with
    | _ :: _, c :: r1 =>
      if c == ':' then (matchCore r1).map (fun r => (submatches ds r, r.2.2.2.2)) else none
    | _, _ => none
  match withHours with
  | some x => some x
  | none => (matchCore s).map (fun r => (submatches [] r, r.2.2.2.2))

/-- The search loop of `FindAllStringSubmatch`: at most `n` successive
non-overlapping matches, each the leftmost one in the remaining text. -/
def findAllAux : Nat → Nat → Str → List (List Str)
  | 0, _, _ => []
  | fuel + 1, n, s =>
    if n = 0 then []
    else
      match matchTimestampAt s with
      | some (g, rest) => g :: findAllAux fuel (n - 1) rest
      | none =>
        match s with
        | [] => []
        | _ :: t => findAllAux fuel n t

/-- Go `timestampRegex.FindAllStringSubmatch(s, n)`; a negative `n` asks for
all matches. -/
def findAllStringSubmatch (s : Str) (n : Int) : List (List Str) :=
  findAllAux (s.length + 1) (if n < 0 then s.length + 1 else n.toNat) s

/-- Source `parseDuration`: milliseconds of one match, in `int64` arithmetic. -/
def parseDuration (groups : List Str) : Int :=
  let h := atoi (groups.getD 1 [])
  let m := atoi (groups.getD 2 [])
  let s := atoi (groups.getD 3 [])
  let ms := atoi (groups.getD 4 [])
  add64 (add64 (add64 (mul64 h 3600000) (mul64 m 60000)) (mul64 s 1000)) ms

/-- Source `parseTimeLine`. -/
def parseTimeLine (line : Str) : Int × Int × Bool :=
  let found := findAllStringSubmatch line 2
  if found.length < 2 then (0, 0, false)
  else (parseDuration (found.getD 0 []), parseDuration (found.getD 1 []), true)

/-- Source `formatLrcTimestamp`; Go `/` and `%` truncate toward zero. -/
def formatLrcTimestamp (ms : Int) : Str :=
  let totalSec := ms.tdiv 1000
  let m := totalSec.tdiv 60
  let s := totalSec.tmod 60
  let cs := (ms.tmod 1000).tdiv 10
  ['['] ++ sprintf02d m ++ [':'] ++ sprintf02d s ++ ['.'] ++ sprintf02d cs ++ [']']

/-! ## Tag stripper -/

/-- A match of the pattern `<[^>]*>` starting exactly at the start of `s`: the
text after the match.  After `<` the greedy `[^>]*` takes every character up to
the first `>` (it cannot cross one), and the match ends with that `>`; when no
`>` follows, no shorter choice for `[^>]*` helps and there is no match. -/
def matchTagAt (s : Str) : Option Str :=
  match s with
  | [] => none
  | c :: t =>
    if c == '<' then
      match t.dropWhile (fun x => x != '>') with
      | [] => none
      | _ :: rest => some rest
    else none

/-- The loop of `ReplaceAllString(text, "")` for the pattern `<[^>]*>`: the
leftmost match in the remaining text is dropped, every other character is
copied. -/
def removeTagsAux : Nat → Str → Str
  | 0, _ => []
  | fuel + 1, s =>
    match matchTagAt s with
    | some rest => removeTagsAux fuel rest
    | none =>
      match s with
      | [] => []
      | c :: t => c :: removeTagsAux fuel t

/-- Source `removeTags`. -/
def removeTags (text : Str) : Str := removeTagsAux (text.length + 1) text

/-! ## Block parser -/

/-- Source `SubtitleBlock`. -/
structure SubtitleBlock where
  StartMs : Int
  EndMs : Int
  Text : List Str
  deriving DecidableEq, Repr

/-- The loop variables of `parseSubtitleFile`. -/
structure ParserState where
  blocks : List SubtitleBlock
  currentBlock : SubtitleBlock
  inBlock : Bool
  deriving DecidableEq, Repr

/-- The state before the first line: `SubtitleBlock{}` is the zero value. -/
def ParserState.init : ParserState :=
  { blocks := [], currentBlock := ⟨0, 0, []⟩, inBlock := false }

/-- Go `regexp.MatchString("^\\d+$", line)`: the whole text is a non-empty run
of ASCII digits (without the `m` flag `^` and `$` match only at the two ends
of the text). -/
def isIndexLine (line : Str) : Bool := !line.isEmpty && line.all isDigit

/-- The last part of the loop body (source lines 302-310), reached by a line
that opened no block. -/
def textStep (st : ParserState) (line : Str) : ParserState :=
  if st.inBlock then
    if !isIndexLine line then
      let stripped := removeTags line
      if stripped ≠ [] then
        { st with currentBlock :=
            { st.currentBlock with Text := st.currentBlock.Text ++ [stripped] } }
      else st
    else st
  else st

/-- One iteration of the loop of `parseSubtitleFile` on the scanned line
`raw`. -/
def step (st : ParserState) (raw : Str) : ParserState :=
  let line := trimSpace raw
  if line = [] then
    if st.inBlock then
      { blocks := st.blocks ++ [st.currentBlock], currentBlock := ⟨0, 0, []⟩, inBlock := false }
    else st
  else if line = "WEBVTT".toList || hasPrefix line "NOTE".toList then st
  else if containsStr line "-->".toList then
    match parseTimeLine line with
    | (start, stop, true) =>
      { blocks := if st.inBlock then st.blocks ++ [st.currentBlock] else st.blocks,
        currentBlock := ⟨start, stop, []⟩,
        inBlock := true }
    | (_, _, false) => textStep st line
  else textStep st line

/-- The loop of `parseSubtitleFile` over the scanned lines, and the push of the
block still open at the end. -/
def parseLines (lines : List Str) : List SubtitleBlock :=
  let st := lines.foldl step ParserState.init
  if st.inBlock then st.blocks ++ [st.currentBlock] else st.blocks

/-- An error value of the operating system or of the line scanner. -/
inductive ReadErr where
  | notExist
  | readFailed
  | tokenTooLong
  deriving DecidableEq, Repr

/-- What `os.Open` and the `bufio.Scanner` deliver for a path: either the open
fails, or `scanner.Scan()` yields `lines` one by one and then returns false,
at the end of the input (`scanErr = none`) or because reading failed
(`scanErr = some e`, the value `scanner.Err()` would report). -/
inductive FileSource where
  | openFails (e : ReadErr)
  | opened (lines : List Str) (scanErr : Option ReadErr)
  deriving DecidableEq, Repr

/-- Source `parseSubtitleFile`.  The function never consults `scanner.Err()`,
so `scanErr` does not occur on the right-hand side. -/
def parseSubtitleFile (src : FileSource) : Except ReadErr (List SubtitleBlock) :=
  match src with
  | .openFails e => .error e
  | .opened lines _ => .ok (parseLines lines)

/-! ## LRC emitter and output path -/

/-- One iteration of the loop of `ConvertVtt` (source lines 185-197) for the
index `i`, appending to the lines `acc` emitted so far. -/
def emitStep (blocks : List SubtitleBlock) (acc : List Str) (i : Nat) : List Str :=
  let block := blocks.getD i ⟨0, 0, []⟩
  let timeTag := formatLrcTimestamp block.StartMs
  let text := joinStr block.Text [' ']
  let acc1 := acc ++ [timeTag ++ text]
  if i < blocks.length - 1 then
    let nextStart := (blocks.getD (i + 1) ⟨0, 0, []⟩).StartMs
    if block.EndMs < nextStart then acc1 ++ [formatLrcTimestamp block.EndMs] else acc1
  else acc1 ++ [formatLrcTimestamp block.EndMs]

/-- The lines `lrcLines` built by `ConvertVtt`. -/
def lrcLines (blocks : List SubtitleBlock) : List Str :=
  (List.range blocks.length).foldl (emitStep blocks) []

/-- Go `os.IsPathSeparator` on Windows, the platform of the program (it loads
`shell32.dll`). -/
def isPathSeparator (c : Char) : Bool := c == '\\' || c == '/'

/-- The backward scan of Go `filepath.Ext` over the reversed path; `acc` is
the suffix already passed. -/
def extScan : Str → Str → Str
  | [], _ => []
  | c :: before, acc =>
    if isPathSeparator c then []
    else if c == '.' then c :: acc
    else extScan before (c :: acc)

/-- Go `filepath.Ext`: the suffix from the last dot of the last path element,
empty when that element has no dot. -/
def filepathExt (path : Str) : Str := extScan path.reverse []

/-- Go `unicode.ToLower` on one code point: ASCII letters are handled
directly; `unicodeLower` stands for the Unicode case tables used for every
other code point. -/
def toLowerChar (unicodeLower : Char → Char) (c : Char) : Char :=
  if c.toNat < 128 then
    (if decide ('A' ≤ c) && decide (c ≤ 'Z') then Char.ofNat (c.toNat + 32) else c)
  else unicodeLower c

/-- Go `strings.ToLower`. -/
def toLower (unicodeLower : Char → Char) (s : Str) : Str :=
  s.map (toLowerChar unicodeLower)

/-- The output path computed by `ConvertVtt` (source lines 199-204). -/
def lrcPath (unicodeLower : Char → Char) (srcPath : Str) : Str :=
  let basePath := srcPath.take (srcPath.length - (filepathExt srcPath).length)
  let ext := toLower unicodeLower (filepathExt basePath)
  if ext = ".wav".toList || ext = ".mp3".toList || ext = ".flac".toList || ext = ".m4a".toList
  then trimSuffix basePath ext ++ ".lrc".toList
  else basePath ++ ".lrc".toList

/-- Source `ConvertVtt` without logging and trash handling: the status string
and, when a write is attempted, the path and content handed to `os.WriteFile`;
`writeOk` tells whether that write succeeds. -/
def ConvertVtt (unicodeLower : Char → Char) (src : FileSource) (srcPath : Str)
    (writeOk : Bool) : Str × Option (Str × Str) :=
  match parseSubtitleFile src with
  | .error _ => ("error".toList, none)
  | .ok blocks =>
    if blocks.length = 0 then ("failed".toList, none)
    else
      let content := joinStr (lrcLines blocks) ['\n']
      let out := some (lrcPath unicodeLower srcPath, content)
      if writeOk then ("success".toList, out) else ("write_error".toList, out)

/-! ## Notions used to state the properties -/

/-- The two-digit decimal of a number below 100: tens digit, units digit. -/
def twoDigit (n : Nat) : Str := [Char.ofNat (48 + n / 10), Char.ofNat (48 + n % 10)]

/-- The number a string of decimal digits denotes (0 for the empty string). -/
def decimalValue (s : Str) : Nat := s.foldl (fun n c => n * 10 + digitVal c) 0

/-- The exact millisecond count of the submatches of one timestamp match:
`hours*3600000 + minutes*60000 + seconds*1000 + milliseconds`, unbounded. -/
def exactMillis (groups : List Str) : Nat :=
  decimalValue (groups.getD 1 []) * 3600000 + decimalValue (groups.getD 2 []) * 60000 +
    decimalValue (groups.getD 3 []) * 1000 + decimalValue (groups.getD 4 [])

/-- A trimmed line the parser skips as a header or comment: exactly `WEBVTT`,
or beginning with `NOTE`. -/
def isHeaderLine (line : Str) : Bool :=
  line = "WEBVTT".toList || hasPrefix line "NOTE".toList

/-- A scanned line that the parser treats as a time-range marker: after
trimming it is not blank, not a header, contains `-->` and `parseTimeLine`
accepts it. -/
def isMarkerLine (raw : Str) : Bool :=
  let line := trimSpace raw
  line ≠ [] && !isHeaderLine line && containsStr line "-->".toList && (parseTimeLine line).2.2

/-- The start and end values `parseTimeLine` gives for a scanned line. -/
def rangeOfLine (raw : Str) : Int × Int :=
  ((parseTimeLine (trimSpace raw)).1, (parseTimeLine (trimSpace raw)).2.1)

/-- The transition of a time-range marker: the open block, if any, is pushed
and a new block with the given start and end and no text is opened. -/
def openBlock (st : ParserState) (start stop : Int) : ParserState :=
  { blocks := if st.inBlock then st.blocks ++ [st.currentBlock] else st.blocks,
    currentBlock := ⟨start, stop, []⟩,
    inBlock := true }

/-- The blocks returned when the input ends in state `st`. -/
def finish (st : ParserState) : List SubtitleBlock :=
  if st.inBlock then st.blocks ++ [st.currentBlock] else st.blocks

/-- The WebVTT example of the specification, as scanned lines. -/
def vttExample : List Str :=
  ["WEBVTT".toList, [], "00:00:01.000 --> 00:00:02.000".toList, "Hello <b>world</b>".toList, [],
    "00:00:05.000 --> 00:00:06.000".toList, "Second line".toList]

/-- The text line of a block: its start tag followed by its text entries
joined with single spaces. -/
def mainLine (b : SubtitleBlock) : Str :=
  formatLrcTimestamp b.StartMs ++ joinStr b.Text [' ']

/-- The emitter as the specification words it: each block gives its text line
and then a timestamp-only line at its end when it is the last block or when
its end lies strictly before the start of the next block. -/
def emitSpec : List SubtitleBlock → List Str
  | [] => []
  | [b] => [mainLine b, formatLrcTimestamp b.EndMs]
  | b :: next :: rest =>
    (mainLine b :: (if b.EndMs < next.StartMs then [formatLrcTimestamp b.EndMs] else [])) ++
      emitSpec (next :: rest)

/-! ## Timestamp formatting -/

theorem sprintf02d_natCast (n : Nat) : sprintf02d (n : Int) = zeroPad 2 (decimal n) := by
  simp [sprintf02d]

theorem zeroPad_decimal_lt_100 : ∀ n : Fin 100, zeroPad 2 (decimal n.val) = twoDigit n.val := by
  decide

theorem zeroPad_two_length (s : Str) : 2 ≤ (zeroPad 2 s).length := by
  simp [zeroPad]; omega

/-- C3: for a non-negative millisecond count, `formatLrcTimestamp` prints
`[mm:ss.cc]` with `mm` the decimal of `ms / 60000` padded with zeros to at least
two digits (not reduced modulo 60), `ss` the two digits of `(ms / 1000) % 60`
(below 60) and `cc` the two digits of `(ms % 1000) / 10`, truncated. -/
theorem formatLrcTimestamp_nonneg (ms : Int) (h : 0 ≤ ms) :
    formatLrcTimestamp ms =
        ['['] ++ zeroPad 2 (decimal (ms.toNat / 60000)) ++ [':'] ++
          twoDigit (ms.toNat / 1000 % 60) ++ ['.'] ++ twoDigit (ms.toNat % 1000 / 10) ++ [']']
      ∧ 2 ≤ (zeroPad 2 (decimal (ms.toNat / 60000))).length
      ∧ ms.toNat / 1000 % 60 < 60
      ∧ ms.toNat % 1000 / 10 < 100 := by
  obtain ⟨k, rfl⟩ := Int.eq_ofNat_of_zero_le h
  have hs : k / 1000 % 60 < 100 := by omega
  have hc : k % 1000 / 10 < 100 := by omega
  refine ⟨?_, zeroPad_two_length _, by omega, hc⟩
  have i1 : (k : Int).tdiv 1000 = ((k / 1000 : Nat) : Int) := by
    rw [Int.tdiv_eq_ediv (by omega) (by norm_num)]; norm_cast
  have i2 : (k : Int).tmod 1000 = ((k % 1000 : Nat) : Int) := by
    rw [Int.tmod_eq_emod (by omega) (by norm_num)]; norm_cast
  have e1 : ((k : Int).tdiv 1000).tdiv 60 = ((k / 60000 : Nat) : Int) := by
    rw [i1, Int.tdiv_eq_ediv (by omega) (by norm_num)]
    norm_cast
    rw [Nat.div_div_eq_div_mul]
  have e2 : ((k : Int).tdiv 1000).tmod 60 = ((k / 1000 % 60 : Nat) : Int) := by
    rw [i1, Int.tmod_eq_emod (by omega) (by norm_num)]
    norm_cast
  have e3 : ((k : Int).tmod 1000).tdiv 10 = ((k % 1000 / 10 : Nat) : Int) := by
    rw [i2, Int.tdiv_eq_ediv (by omega) (by norm_num)]
    norm_cast
  simp only [formatLrcTimestamp, e1, e2, e3, sprintf02d_natCast, Int.toNat_ofNat]
  rw [zeroPad_decimal_lt_100 ⟨_, hs⟩, zeroPad_decimal_lt_100 ⟨_, hc⟩]

/-- The example of C3: 62345 ms prints as `[01:02.34]`. -/
theorem formatLrcTimestamp_nonneg_witness :
    (0 : Int) ≤ 62345 ∧ formatLrcTimestamp 62345 = "[01:02.34]".toList := by
  refine ⟨by decide, ?_⟩
  rw [(formatLrcTimestamp_nonneg 62345 (by decide)).1]
  decide

/-! ## Timestamp parsing -/

theorem wrap64_of_range (x : Int) (h0 : -(2 ^ 63) ≤ x) (h1 : x < 2 ^ 63) : wrap64 x = x := by
  unfold wrap64
  norm_num at h0 h1 ⊢
  omega

theorem isDigit_ne_sign (c : Char) (h : isDigit c = true) : (c == '-') = false ∧ (c == '+') = false := by
  constructor
  · by_contra hc
    simp only [Bool.not_eq_false, beq_iff_eq] at hc
    subst hc
    exact absurd h (by decide)
  · by_contra hc
    simp only [Bool.not_eq_false, beq_iff_eq] at hc
    subst hc
    exact absurd h (by decide)

theorem foldl_digits_ge (s : Str) (n : Nat) :
    n ≤ s.foldl (fun a c => a * 10 + digitVal c) n := by
  induction s generalizing n with
  | nil => simp
  | cons c t ih =>
    simp only [List.foldl_cons]
    have := ih (n * 10 + digitVal c)
    omega

theorem parseUintLoop_digits (s : Str) (hs : s.all isDigit = true) (n : Nat)
    (h : s.foldl (fun a c => a * 10 + digitVal c) n < 2 ^ 64) :
    parseUintLoop n s = some (s.foldl (fun a c => a * 10 + digitVal c) n, false) := by
  induction s generalizing n with
  | nil => simp [parseUintLoop]
  | cons c t ih =>
    simp only [List.all_cons, Bool.and_eq_true] at hs
    simp only [List.foldl_cons] at h ⊢
    have hge := foldl_digits_ge t (n * 10 + digitVal c)
    have hlt : ¬ (2 ^ 64 ≤ n * 10 + digitVal c) := by omega
    simp only [parseUintLoop, hs.1, Bool.not_true, Bool.false_eq_true, if_false, hlt]
    exact ih hs.2 _ h

theorem atoi_digits (s : Str) (hs : s.all isDigit = true) (h : decimalValue s < 2 ^ 63) :
    atoi s = (decimalValue s : Int) := by
  cases s with
  | nil => simp [atoi, decimalValue]
  | cons c t =>
    have hc : isDigit c = true := by
      simp only [List.all_cons, Bool.and_eq_true] at hs
      exact hs.1
    obtain ⟨h1, h2⟩ := isDigit_ne_sign c hc
    have hp := parseUintLoop_digits (c :: t) hs 0 (by unfold decimalValue at h; omega)
    have hv : ¬ (2 ^ 63 ≤ decimalValue (c :: t)) := by omega
    simp only [atoi, h1, h2, Bool.or_self, Bool.false_eq_true, if_false, List.isEmpty_cons, hp]
    simp only [decimalValue] at hv ⊢
    rw [if_neg (by exact_mod_cast hv)]

theorem matchCore_some {s : Str} {r : Str × Str × Char × Str × Str} (h : matchCore s = some r) :
    r.1.all isDigit = true ∧ r.2.1.all isDigit = true ∧ r.2.2.2.1.all isDigit = true ∧
      r.1.length = 2 ∧ r.2.1.length = 2 ∧ r.2.2.2.1.length = 3 ∧
      (r.2.2.1 = '.' ∨ r.2.2.1 = ',') ∧
      s = r.1 ++ [':'] ++ r.2.1 ++ [r.2.2.1] ++ r.2.2.2.1 ++ r.2.2.2.2 := by
  unfold matchCore at h
  split at h
  · split at h
    · rename_i hc
      simp only [Bool.and_eq_true, Bool.or_eq_true, beq_iff_eq] at hc
      obtain ⟨⟨⟨⟨⟨⟨⟨⟨a1, a2⟩, a3⟩, a4⟩, a5⟩, a6⟩, a7⟩, a8⟩, a9⟩ := hc
      simp only [Option.some.injEq] at h
      subst h
      simp [a1, a2, a3, a4, a5, a6, a7, a8, a9]
    · simp at h
  · simp at h

theorem matchTimestampAt_some {s : Str} {g : List Str} {rest : Str}
    (h : matchTimestampAt s = some (g, rest)) :
    ∃ (hrs : Str) (r : Str × Str × Char × Str × Str),
      g = submatches hrs r ∧ rest = r.2.2.2.2 ∧ hrs.all isDigit = true ∧
        r.1.all isDigit = true ∧ r.2.1.all isDigit = true ∧ r.2.2.2.1.all isDigit = true ∧
        r.1.length = 2 ∧ r.2.1.length = 2 ∧ r.2.2.2.1.length = 3 := by
  unfold matchTimestampAt at h
  simp only at h
  split at h
  · rename_i x hx
    simp only [Option.some.injEq] at h
    subst h
    split at hx
    · rename_i c r1 hds hdw
      split at hx
      · simp only [Option.map_eq_some'] at hx
        obtain ⟨r, hr, hgr⟩ := hx
        have := matchCore_some hr
        refine ⟨s.takeWhile isDigit, r, ?_, ?_, ?_, this.1, this.2.1, this.2.2.1, this.2.2.2.1,
          this.2.2.2.2.1, this.2.2.2.2.2.1⟩
        · simpa using (congrArg Prod.fst hgr).symm
        · simpa using (congrArg Prod.snd hgr).symm
        · simp only [List.all_eq_true]
          intro c hc
          exact List.mem_takeWhile_imp hc
      · simp at hx
    · simp at hx
  · simp only [Option.map_eq_some'] at h
    obtain ⟨r, hr, hgr⟩ := h
    have := matchCore_some hr
    refine ⟨[], r, ?_, ?_, by simp, this.1, this.2.1, this.2.2.1, this.2.2.2.1,
      this.2.2.2.2.1, this.2.2.2.2.2.1⟩
    · simpa using (congrArg Prod.fst hgr).symm
    · simpa using (congrArg Prod.snd hgr).symm

/-- C4 (amended): for every match of `timestampRegex`, `parseDuration` of its
submatches is exactly `hours*3600000 + minutes*60000 + seconds*1000 +
milliseconds` (hours 0 when the group is absent) provided that sum is below
`2^63`, the range of `int64`. -/
theorem parseDuration_exact_of_lt (s : Str) (g : List Str) (rest : Str)
    (hm : matchTimestampAt s = some (g, rest)) (hlt : exactMillis g < 2 ^ 63) :
    parseDuration g = (exactMillis g : Int) := by
  obtain ⟨hrs, r, hg, -, dh, dm, dsec, df, -, -, -⟩ := matchTimestampAt_some hm
  subst hg
  simp only [exactMillis, submatches, List.getD_cons_succ, List.getD_cons_zero] at hlt
  have ah := atoi_digits hrs dh (by omega)
  have am := atoi_digits r.1 dm (by omega)
  have asec := atoi_digits r.2.1 dsec (by omega)
  have af := atoi_digits r.2.2.2.1 df (by omega)
  simp only [parseDuration, exactMillis, submatches, List.getD_cons_succ, List.getD_cons_zero,
    ah, am, asec, af, add64, mul64]
  rw [wrap64_of_range (_ * 3600000) (by omega) (by omega),
    wrap64_of_range (_ * 60000) (by omega) (by omega),
    wrap64_of_range (_ * 1000) (by omega) (by omega),
    wrap64_of_range (_ + _ * 60000) (by omega) (by omega),
    wrap64_of_range (_ + _ * 1000) (by omega) (by omega),
    wrap64_of_range _ (by omega) (by omega)]
  push_cast
  ring

/-- The example of C4: `00:01:02.345` is 62345 ms. -/
theorem parseDuration_exact_of_lt_witness :
    matchTimestampAt "00:01:02.345".toList =
        some (["00:01:02.345".toList, "00".toList, "01".toList, "02".toList, "345".toList], []) ∧
      exactMillis ["00:01:02.345".toList, "00".toList, "01".toList, "02".toList, "345".toList]
        < 2 ^ 63 ∧
      parseDuration ["00:01:02.345".toList, "00".toList, "01".toList, "02".toList, "345".toList]
        = 62345 := by
  refine ⟨by decide, by decide, ?_⟩
  rw [parseDuration_exact_of_lt "00:01:02.345".toList _ [] (by decide) (by decide)]
  decide

/-- C4 (counterexample): the text `9999999999999:00:00.000` matches with an
hour group of 13 digits; the exact value is 35999999999996400000, but
`parseDuration` returns the wrapped `int64` value -893488147422703232. -/
theorem parseDuration_wraps_large_hours :
    matchTimestampAt "9999999999999:00:00.000".toList =
        some (["9999999999999:00:00.000".toList, "9999999999999".toList, "00".toList,
          "00".toList, "000".toList], []) ∧
      exactMillis ["9999999999999:00:00.000".toList, "9999999999999".toList, "00".toList,
          "00".toList, "000".toList] = 35999999999996400000 ∧
      parseDuration ["9999999999999:00:00.000".toList, "9999999999999".toList, "00".toList,
          "00".toList, "000".toList] = -893488147422703232 := by
  decide

/-! ## Time-range lines -/

theorem matchTimestampAt_length {s : Str} {g : List Str} {rest : Str}
    (h : matchTimestampAt s = some (g, rest)) : rest.length < s.length := by
  unfold matchTimestampAt at h
  simp only at h
  split at h
  · rename_i x hx
    simp only [Option.some.injEq] at h
    subst h
    split at hx
    · rename_i c r1 hds hdw
      split at hx
      · simp only [Option.map_eq_some'] at hx
        obtain ⟨r, hr, hgr⟩ := hx
        have hc := (matchCore_some hr).2.2.2.2.2.2.2
        have hrest : rest = r.2.2.2.2 := by simpa using (congrArg Prod.snd hgr).symm
        have hsplit := List.takeWhile_append_dropWhile isDigit s
        rw [hdw] at hsplit
        have hl := congrArg List.length hsplit
        have hl2 := congrArg List.length hc
        simp only [List.length_append, List.length_cons, List.length_nil] at hl hl2
        rw [hrest]
        omega
      · simp at hx
    · simp at hx
  · simp only [Option.map_eq_some'] at h
    obtain ⟨r, hr, hgr⟩ := h
    have hc := (matchCore_some hr).2.2.2.2.2.2.2
    have hrest : rest = r.2.2.2.2 := by simpa using (congrArg Prod.snd hgr).symm
    have hl2 := congrArg List.length hc
    simp only [List.length_append, List.length_cons, List.length_nil] at hl2
    rw [hrest]
    omega

/-- The search loop does not depend on the fuel once it exceeds the length of
the text: the loop of the model never stops for lack of fuel. -/
theorem findAllAux_fuel (f1 f2 : Nat) (n : Nat) (s : Str) (h1 : s.length < f1)
    (h2 : s.length < f2) : findAllAux f1 n s = findAllAux f2 n s := by
  induction f1 generalizing f2 n s with
  | zero => omega
  | succ k ih =>
    cases f2 with
    | zero => omega
    | succ k2 =>
      simp only [findAllAux]
      by_cases hn : n = 0
      · simp [hn]
      · simp only [hn, if_false]
        cases hm : matchTimestampAt s with
        | some x =>
          obtain ⟨g, rest⟩ := x
          have hl := matchTimestampAt_length hm
          simp only
          rw [ih k2 (n - 1) rest (by omega) (by omega)]
        | none =>
          cases s with
          | nil => rfl
          | cons c t =>
            simp only [List.length_cons] at h1 h2
            simp only
            exact ih k2 n t (by omega) (by omega)

/-- Asking for at most `n` matches gives the first `n` of the matches found
with any larger limit. -/
theorem findAllAux_take (fuel : Nat) (n m : Nat) (s : Str) (h : n ≤ m) :
    findAllAux fuel n s = (findAllAux fuel m s).take n := by
  induction fuel generalizing n m s with
  | zero => simp [findAllAux]
  | succ k ih =>
    simp only [findAllAux]
    by_cases hn : n = 0
    · simp [hn]
    · have hm0 : m ≠ 0 := by omega
      simp only [hn, hm0, if_false]
      cases hm : matchTimestampAt s with
      | some x =>
        obtain ⟨g, rest⟩ := x
        simp only
        obtain ⟨n1, rfl⟩ := Nat.exists_eq_succ_of_ne_zero hn
        rw [List.take_succ_cons, Nat.succ_sub_one, ih n1 (m - 1) rest (by omega)]
      | none =>
        cases s with
        | nil => simp
        | cons c t =>
          simp only
          exact ih n m t h

/-- A limit above the length of the text is no limit. -/
theorem findAllAux_limit (fuel : Nat) (n m : Nat) (s : Str) (hn : s.length < n)
    (hm : s.length < m) : findAllAux fuel n s = findAllAux fuel m s := by
  induction fuel generalizing n m s with
  | zero => rfl
  | succ k ih =>
    have hn0 : n ≠ 0 := by omega
    have hm0 : m ≠ 0 := by omega
    simp only [findAllAux, hn0, hm0, if_false]
    cases hmt : matchTimestampAt s with
    | some x =>
      obtain ⟨g, rest⟩ := x
      have hl := matchTimestampAt_length hmt
      simp only
      rw [ih (n - 1) (m - 1) rest (by omega) (by omega)]
    | none =>
      cases s with
      | nil => rfl
      | cons c t =>
        simp only [List.length_cons] at hn hm
        simp only
        exact ih n m t (by omega) (by omega)

/-- All matches on a text: the leftmost match at the front followed by all
matches on the text after it, or, when no match starts at the front, all
matches on the text without its first character. -/
theorem findAllStringSubmatch_all (s : Str) :
    findAllStringSubmatch s (-1) =
      match matchTimestampAt s with
      | some (g, rest) => g :: findAllStringSubmatch rest (-1)
      | none =>
        match s with
        | [] => []
        | _ :: t => findAllStringSubmatch t (-1) := by
  have hneg : ((-1 : Int) < 0) = True := by simp
  have hall : ∀ t : Str,
      findAllStringSubmatch t (-1) = findAllAux (t.length + 1) (t.length + 1) t := by
    intro t
    simp only [findAllStringSubmatch, hneg, if_true]
  have hstep : findAllAux (s.length + 1) (s.length + 1) s =
      match matchTimestampAt s with
      | some (g, rest) => g :: findAllAux s.length (s.length + 1 - 1) rest
      | none =>
        match s with
        | [] => []
        | _ :: t => findAllAux s.length (s.length + 1) t := by
    simp only [findAllAux, Nat.succ_ne_zero, if_false]
  rw [hall s, hstep]
  cases hmt : matchTimestampAt s with
  | some x =>
    obtain ⟨g, rest⟩ := x
    have hl := matchTimestampAt_length hmt
    simp only
    rw [hall rest, findAllAux_fuel s.length (rest.length + 1) _ rest hl (Nat.lt_succ_self _),
      findAllAux_limit _ (s.length + 1 - 1) (rest.length + 1) rest (by omega) (by omega)]
  | none =>
    cases s with
    | nil => rfl
    | cons c t =>
      simp only [List.length_cons]
      rw [hall t,
        findAllAux_limit _ (t.length + 1 + 1) (t.length + 1) t (by omega) (by omega)]

/-- C5: `parseTimeLine` returns `ok = true` with the `parseDuration` values of
the first and the second match of `timestampRegex` on the line when the line
has at least two matches, and `(0, 0, false)` when it has fewer than two. -/
theorem parseTimeLine_eq (line : Str) :
    parseTimeLine line =
      if 2 ≤ (findAllStringSubmatch line (-1)).length then
        (parseDuration ((findAllStringSubmatch line (-1)).getD 0 []),
          parseDuration ((findAllStringSubmatch line (-1)).getD 1 []), true)
      else (0, 0, false) := by
  cases line with
  | nil => decide
  | cons c t =>
    have ht : findAllStringSubmatch (c :: t) 2 = (findAllStringSubmatch (c :: t) (-1)).take 2 := by
      simp only [findAllStringSubmatch, List.length_cons]
      exact findAllAux_take _ 2 _ _ (by simp)
    generalize findAllStringSubmatch (c :: t) (-1) = all at ht
    simp only [parseTimeLine, ht]
    match all with
    | [] => simp
    | [a] => simp
    | a :: b :: rest => simp

/-- The examples of C5: a line with two timestamps and a line with one. -/
theorem parseTimeLine_eq_witness :
    parseTimeLine "00:00:01.000 --> 00:00:03.500".toList = (1000, 3500, true) ∧
      parseTimeLine "00:00:01.000".toList = (0, 0, false) := by
  constructor
  · rw [parseTimeLine_eq]; decide
  · rw [parseTimeLine_eq]; decide

/-! ## Block parser -/

theorem step_cases (st : ParserState) (raw : Str) :
    step st raw =
      if trimSpace raw = [] then
        (if st.inBlock then
          { blocks := st.blocks ++ [st.currentBlock], currentBlock := ⟨0, 0, []⟩,
            inBlock := false }
        else st)
      else if isHeaderLine (trimSpace raw) then st
      else if isMarkerLine raw then openBlock st (rangeOfLine raw).1 (rangeOfLine raw).2
      else textStep st (trimSpace raw) := by
  unfold step isMarkerLine isHeaderLine rangeOfLine openBlock
  generalize "-->".toList = arrow
  generalize "WEBVTT".toList = w
  generalize "NOTE".toList = nt
  generalize trimSpace raw = line
  by_cases hb : line = [] <;> by_cases hh1 : line = w <;>
    by_cases hh2 : hasPrefix line nt = true <;>
    by_cases hc : containsStr line arrow = true <;>
    rcases hp : parseTimeLine line with ⟨a, b, ok⟩ <;> cases ok <;> simp [*]

theorem finish_step (st : ParserState) (raw : Str) :
    (finish (step st raw)).map (fun b => (b.StartMs, b.EndMs)) =
      (finish st).map (fun b => (b.StartMs, b.EndMs)) ++
        (if isMarkerLine raw then [rangeOfLine raw] else []) := by
  rw [step_cases]
  by_cases hb : trimSpace raw = []
  · have : isMarkerLine raw = false := by simp [isMarkerLine, hb]
    cases hi : st.inBlock <;> simp [hb, this, finish, hi]
  · by_cases hh : isHeaderLine (trimSpace raw) = true
    · have : isMarkerLine raw = false := by simp [isMarkerLine, hh]
      simp [hb, hh, this]
    · by_cases hm : isMarkerLine raw = true
      · cases hi : st.inBlock <;> simp [hb, hh, hm, finish, openBlock, hi]
      · simp only [hb, hh, hm, if_false, Bool.false_eq_true, List.append_nil]
        unfold textStep
        cases hi : st.inBlock
        · simp [finish, hi]
        · by_cases h1 : isIndexLine (trimSpace raw) = true
          · simp [h1, finish, hi]
          · by_cases h2 : removeTags (trimSpace raw) = []
            · simp [h1, h2, finish, hi]
            · simp [h1, h2, finish, hi]

theorem finish_foldl (lines : List Str) (st : ParserState) :
    (finish (lines.foldl step st)).map (fun b => (b.StartMs, b.EndMs)) =
      (finish st).map (fun b => (b.StartMs, b.EndMs)) ++
        (lines.filter isMarkerLine).map rangeOfLine := by
  induction lines generalizing st with
  | nil => simp
  | cons raw rest ih =>
    rw [List.foldl_cons, ih, finish_step]
    by_cases hm : isMarkerLine raw = true
    · simp [hm]
    · simp [hm]

/-- C1: the blocks returned by the parser are, in source order, one per line
treated as a time-range marker, the i-th block carrying the start and end that
`parseTimeLine` gives for the i-th such line; in particular an input without a
marker line (such as the empty input) gives no block, and a read that reaches
the end of the input returns these blocks without an error. -/
theorem parseLines_ranges (lines : List Str) :
    (parseLines lines).map (fun b => (b.StartMs, b.EndMs)) =
        (lines.filter isMarkerLine).map rangeOfLine
      ∧ (parseLines lines).length = (lines.filter isMarkerLine).length
      ∧ (lines.filter isMarkerLine = [] → parseLines lines = [])
      ∧ parseSubtitleFile (.opened lines none) = .ok (parseLines lines) := by
  have h : (parseLines lines).map (fun b => (b.StartMs, b.EndMs)) =
      (lines.filter isMarkerLine).map rangeOfLine := by
    have := finish_foldl lines ParserState.init
    simpa [parseLines, finish, ParserState.init] using this
  refine ⟨h, ?_, ?_, rfl⟩
  · simpa using congrArg List.length h
  · intro hn
    rw [hn] at h
    simpa using h

/-- The examples of C1: the WebVTT sample gives its two blocks, two markers
need no blank line between them, and the empty input gives no block. -/
theorem parseLines_ranges_witness :
    parseLines vttExample =
        [⟨1000, 2000, ["Hello world".toList]⟩, ⟨5000, 6000, ["Second line".toList]⟩] ∧
      parseLines ["00:00:01.000 --> 00:00:02.000".toList, "a".toList,
          "00:00:02.000 --> 00:00:03.000".toList] =
        [⟨1000, 2000, ["a".toList]⟩, ⟨2000, 3000, []⟩] ∧
      parseLines [] = [] ∧
      parseLines ["WEBVTT".toList, "no cue here".toList] = [] := by
  refine ⟨by decide, by decide, (parseLines_ranges []).2.2.1 rfl, ?_⟩
  exact (parseLines_ranges ["WEBVTT".toList, "no cue here".toList]).2.2.1 (by decide)

theorem textStep_ne_openBlock (st : ParserState) (line : Str) (a b : Int) :
    textStep st line ≠ openBlock st a b := by
  intro h
  cases hi : st.inBlock
  · have h1 := congrArg ParserState.inBlock h
    simp [textStep, openBlock, hi] at h1
  · have h1 := congrArg (fun s => s.blocks.length) h
    unfold textStep openBlock at h1
    simp only [hi, if_true] at h1
    split at h1
    · split at h1 <;> simp at h1
    · simp at h1

/-- C6 (amended): a trimmed line that is not blank and not a header is treated
as a time-range marker (the open block is pushed and a new block with the
parsed start and end is opened) exactly when it contains `-->` and
`parseTimeLine` returns `ok = true` on it; every other such line takes the
text-line path and opens no block. -/
theorem step_marker_iff (st : ParserState) (raw : Str) (hb : trimSpace raw ≠ [])
    (hh : isHeaderLine (trimSpace raw) = false) :
    ((containsStr (trimSpace raw) "-->".toList = true ∧
          (parseTimeLine (trimSpace raw)).2.2 = true) →
        step st raw = openBlock st (rangeOfLine raw).1 (rangeOfLine raw).2)
      ∧ (¬ (containsStr (trimSpace raw) "-->".toList = true ∧
            (parseTimeLine (trimSpace raw)).2.2 = true) →
          step st raw = textStep st (trimSpace raw) ∧
            ∀ a b : Int, step st raw ≠ openBlock st a b) := by
  rw [step_cases]
  simp only [hb, hh, if_false, Bool.false_eq_true]
  constructor
  · intro hc
    have : isMarkerLine raw = true := by
      unfold isMarkerLine isHeaderLine
      unfold isHeaderLine at hh
      simp only [hh, hc.1, hc.2, Bool.not_false, Bool.and_true, decide_eq_true_eq]
      exact hb
    simp [this]
  · intro hc
    have : isMarkerLine raw = false := by
      unfold isMarkerLine
      by_contra hne
      simp only [Bool.not_eq_false, Bool.and_eq_true] at hne
      exact hc ⟨hne.1.2, hne.2⟩
    simp only [this, Bool.false_eq_true, if_false, true_and]
    exact fun a b => textStep_ne_openBlock st _ a b

/-- An instance of C6 as amended: a line with `-->` and two timestamps opens a
block, whatever state the parser is in. -/
theorem step_marker_iff_witness :
    step ParserState.init "00:00:01.000 --> 00:00:03.500".toList =
      openBlock ParserState.init 1000 3500 :=
  (step_marker_iff ParserState.init "00:00:01.000 --> 00:00:03.500".toList (by decide)
    (by decide)).1 (by decide)

/-- C6 (counterexample): on the line `00:00:01.000 - 00:00:02.000`, which is
not blank and not a header, `parseTimeLine` returns `ok = true`, but the line
has no `-->` and the parser does not treat it as a marker: no block is opened,
and inside an open block the line is taken as text. -/
theorem two_timestamps_without_arrow_not_marker :
    trimSpace "00:00:01.000 - 00:00:02.000".toList = "00:00:01.000 - 00:00:02.000".toList ∧
      isHeaderLine "00:00:01.000 - 00:00:02.000".toList = false ∧
      parseTimeLine "00:00:01.000 - 00:00:02.000".toList = (1000, 2000, true) ∧
      step ParserState.init "00:00:01.000 - 00:00:02.000".toList = ParserState.init ∧
      parseLines ["00:00:01.000 - 00:00:02.000".toList] = [] ∧
      parseLines ["00:00:05.000 --> 00:00:06.000".toList,
          "00:00:01.000 - 00:00:02.000".toList] =
        [⟨5000, 6000, ["00:00:01.000 - 00:00:02.000".toList]⟩] := by
  decide

/-- C7: a line that is not blank, not a header and not a marker leaves the
state unchanged when no block is open; with a block open it leaves the state
unchanged when it consists of decimal digits only or when nothing remains after
tag stripping, and otherwise appends exactly the stripped line to the text of
the open block. -/
theorem step_text_line (st : ParserState) (raw : Str) (hb : trimSpace raw ≠ [])
    (hh : isHeaderLine (trimSpace raw) = false) (hm : isMarkerLine raw = false) :
    (st.inBlock = false → step st raw = st)
      ∧ (st.inBlock = true → (trimSpace raw).all isDigit = true → step st raw = st)
      ∧ (st.inBlock = true → (trimSpace raw).all isDigit = false →
          removeTags (trimSpace raw) = [] → step st raw = st)
      ∧ (st.inBlock = true → (trimSpace raw).all isDigit = false →
          removeTags (trimSpace raw) ≠ [] →
          step st raw =
            { blocks := st.blocks,
              currentBlock :=
                { StartMs := st.currentBlock.StartMs, EndMs := st.currentBlock.EndMs,
                  Text := st.currentBlock.Text ++ [removeTags (trimSpace raw)] },
              inBlock := true }) := by
  rw [step_cases]
  simp only [hb, hh, hm, if_false, Bool.false_eq_true]
  have hne : (trimSpace raw).isEmpty = false := by
    cases h : trimSpace raw with
    | nil => exact absurd h hb
    | cons c t => rfl
  unfold textStep isIndexLine
  refine ⟨?_, ?_, ?_, ?_⟩
  · intro hi; simp [hi]
  · intro hi hd; simp [hi, hd, hne]
  · intro hi hd hr; simp [hi, hd, hne, hr]
  · intro hi hd hr
    simp only [hi, hd, hne, if_true]
    simp [hr]

/-- The example of C7: after a time-range line the index line `1` is
discarded, a text line is appended with its tags stripped, a line of tags only
adds nothing, and text outside any block is ignored. -/
theorem step_text_line_witness :
    step (openBlock ParserState.init 1000 2000) "1".toList = openBlock ParserState.init 1000 2000 ∧
      step (openBlock ParserState.init 1000 2000) "Hello <b>world</b>".toList =
        { blocks := [], currentBlock := ⟨1000, 2000, ["Hello world".toList]⟩, inBlock := true } ∧
      step (openBlock ParserState.init 1000 2000) "<i></i>".toList =
        openBlock ParserState.init 1000 2000 ∧
      step ParserState.init "stray".toList = ParserState.init := by
  refine ⟨?_, ?_, ?_, ?_⟩
  · exact (step_text_line _ "1".toList (by decide) (by decide) (by decide)).2.1 rfl (by decide)
  · exact (step_text_line _ "Hello <b>world</b>".toList (by decide) (by decide)
      (by decide)).2.2.2 rfl (by decide) (by decide)
  · exact (step_text_line _ "<i></i>".toList (by decide) (by decide) (by decide)).2.2.1 rfl
      (by decide) (by decide)
  · exact (step_text_line _ "stray".toList (by decide) (by decide) (by decide)).1 rfl

/-! ## Tag stripper -/

theorem dropWhile_gt_of_not_mem (t : Str) (h : '>' ∉ t) :
    t.dropWhile (fun x => x != '>') = [] := by
  induction t with
  | nil => rfl
  | cons c t ih =>
    simp only [List.mem_cons, not_or] at h
    have hc : (c != '>') = true := by simpa using fun e => h.1 e.symm
    simp [List.dropWhile_cons, hc, ih h.2]

theorem dropWhile_gt_append (mid rest : Str) (h : '>' ∉ mid) :
    (mid ++ '>' :: rest).dropWhile (fun x => x != '>') = '>' :: rest := by
  induction mid with
  | nil => simp [List.dropWhile_cons]
  | cons c t ih =>
    simp only [List.mem_cons, not_or] at h
    have hc : (c != '>') = true := by simpa using fun e => h.1 e.symm
    simp [List.dropWhile_cons, hc, ih h.2]

theorem dropWhile_gt_cases (t : Str) :
    ('>' ∉ t ∧ t.dropWhile (fun x => x != '>') = []) ∨
      ∃ mid rest, t = mid ++ '>' :: rest ∧ '>' ∉ mid ∧
        t.dropWhile (fun x => x != '>') = '>' :: rest := by
  by_cases h : '>' ∈ t
  · right
    obtain ⟨mid, rest, ht, hmid⟩ := List.eq_append_cons_of_mem h
    exact ⟨mid, rest, ht, hmid, ht ▸ dropWhile_gt_append mid rest hmid⟩
  · exact Or.inl ⟨h, dropWhile_gt_of_not_mem t h⟩

theorem matchTagAt_tag (mid rest : Str) (h : '>' ∉ mid) :
    matchTagAt ('<' :: (mid ++ '>' :: rest)) = some rest := by
  simp [matchTagAt, dropWhile_gt_append mid rest h]

theorem matchTagAt_open (t : Str) (h : '>' ∉ t) : matchTagAt ('<' :: t) = none := by
  simp [matchTagAt, dropWhile_gt_of_not_mem t h]

theorem matchTagAt_other (c : Char) (t : Str) (h : c ≠ '<') : matchTagAt (c :: t) = none := by
  simp [matchTagAt, h]

theorem matchTagAt_some {s rest : Str} (h : matchTagAt s = some rest) :
    ∃ mid, s = '<' :: (mid ++ '>' :: rest) ∧ '>' ∉ mid := by
  cases s with
  | nil => simp [matchTagAt] at h
  | cons c t =>
    by_cases hc : c = '<'
    · subst hc
      rcases dropWhile_gt_cases t with ⟨hn, -⟩ | ⟨mid, r, ht, hmid, -⟩
      · rw [matchTagAt_open t hn] at h
        cases h
      · subst ht
        rw [matchTagAt_tag mid r hmid] at h
        cases h
        exact ⟨mid, rfl, hmid⟩
    · rw [matchTagAt_other c t hc] at h
      cases h

theorem matchTagAt_length {s rest : Str} (h : matchTagAt s = some rest) :
    rest.length < s.length := by
  obtain ⟨mid, rfl, -⟩ := matchTagAt_some h
  simp
  omega

/-- The replacement loop does not depend on the fuel once it exceeds the
length of the text. -/
theorem removeTagsAux_fuel (f1 f2 : Nat) (s : Str) (h1 : s.length < f1) (h2 : s.length < f2) :
    removeTagsAux f1 s = removeTagsAux f2 s := by
  induction f1 generalizing f2 s with
  | zero => omega
  | succ k ih =>
    cases f2 with
    | zero => omega
    | succ k2 =>
      simp only [removeTagsAux]
      cases hm : matchTagAt s with
      | some rest =>
        have hl := matchTagAt_length hm
        simp only
        exact ih k2 rest (by omega) (by omega)
      | none =>
        cases s with
        | nil => rfl
        | cons c t =>
          simp only [List.length_cons] at h1 h2
          simp only
          rw [ih k2 t (by omega) (by omega)]

theorem removeTags_nil : removeTags [] = [] := rfl

theorem removeTags_tag (mid rest : Str) (h : '>' ∉ mid) :
    removeTags ('<' :: (mid ++ '>' :: rest)) = removeTags rest := by
  unfold removeTags
  rw [removeTagsAux]
  simp only [matchTagAt_tag mid rest h]
  exact removeTagsAux_fuel _ _ _ (by simp; omega) (by simp)

theorem removeTags_other (c : Char) (t : Str) (h : c ≠ '<') :
    removeTags (c :: t) = c :: removeTags t := by
  unfold removeTags
  rw [removeTagsAux]
  simp only [matchTagAt_other c t h]
  rfl

theorem removeTags_of_none (c : Char) (t : Str) (hn : matchTagAt (c :: t) = none) :
    removeTags (c :: t) = c :: removeTags t := by
  unfold removeTags
  rw [removeTagsAux]
  simp only [hn]
  rfl

theorem removeTags_no_gt (t : Str) (h : '>' ∉ t) : removeTags t = t := by
  induction t with
  | nil => rfl
  | cons c t ih =>
    simp only [List.mem_cons, not_or] at h
    by_cases hc : c = '<'
    · subst hc
      rw [removeTags_of_none _ t (matchTagAt_open t h.2), ih h.2]
    · rw [removeTags_other c t hc, ih h.2]

theorem removeTags_append_of_no_lt (pre s : Str) (h : '<' ∉ pre) :
    removeTags (pre ++ s) = pre ++ removeTags s := by
  induction pre with
  | nil => rfl
  | cons c t ih =>
    simp only [List.mem_cons, not_or] at h
    rw [List.cons_append, removeTags_other c _ (fun e => h.1 e.symm), ih h.2, List.cons_append]

theorem removeTags_sublist_aux (n : Nat) :
    ∀ s : Str, s.length < n → (removeTags s).Sublist s := by
  induction n with
  | zero => intro s h; omega
  | succ n ih =>
    intro s hlen
    cases s with
    | nil => simp [removeTags_nil]
    | cons c t =>
      simp only [List.length_cons] at hlen
      by_cases hc : c = '<'
      · subst hc
        rcases dropWhile_gt_cases t with ⟨hno, -⟩ | ⟨mid, r, ht, hmid, -⟩
        · have hs : '>' ∉ ('<' :: t) := by
            simp only [List.mem_cons, not_or]
            exact ⟨by decide, hno⟩
          rw [removeTags_no_gt _ hs]
        · subst ht
          rw [removeTags_tag mid r hmid]
          have h1 := ih r (by simp at hlen; omega)
          have h2 : r.Sublist ('<' :: (mid ++ '>' :: r)) :=
            (List.sublist_cons_self '>' r).trans
              ((List.sublist_append_right mid ('>' :: r)).cons '<')
          exact h1.trans h2
      · rw [removeTags_other c t hc]
        exact (ih t (by omega)).cons₂ c

theorem removeTags_no_tag_aux (n : Nat) :
    ∀ s : Str, s.length < n →
      ∀ pre post : Str, removeTags s = pre ++ '<' :: post → '>' ∉ post := by
  induction n with
  | zero => intro s h; omega
  | succ n ih =>
    intro s hlen pre post heq
    cases s with
    | nil =>
      rw [removeTags_nil] at heq
      simp at heq
    | cons c t =>
      simp only [List.length_cons] at hlen
      by_cases hc : c = '<'
      · subst hc
        rcases dropWhile_gt_cases t with ⟨hno, -⟩ | ⟨mid, r, ht, hmid, -⟩
        · have hs : '>' ∉ ('<' :: t) := by
            simp only [List.mem_cons, not_or]
            exact ⟨by decide, hno⟩
          rw [removeTags_no_gt _ hs] at heq
          intro hp
          apply hs
          rw [heq]
          simp [hp]
        · subst ht
          rw [removeTags_tag mid r hmid] at heq
          exact ih r (by simp at hlen; omega) pre post heq
      · rw [removeTags_other c t hc] at heq
        cases pre with
        | nil =>
          simp only [List.nil_append, List.cons.injEq] at heq
          exact absurd heq.1 hc
        | cons p pre1 =>
          simp only [List.cons_append, List.cons.injEq] at heq
          exact ih t (by omega) pre1 post heq.2

theorem removeTags_fixed (r : Str)
    (h : ∀ pre post : Str, r = pre ++ '<' :: post → '>' ∉ post) : removeTags r = r := by
  induction r with
  | nil => rfl
  | cons c t ih =>
    by_cases hc : c = '<'
    · subst hc
      have hno : '>' ∉ t := h [] t rfl
      rw [removeTags_of_none _ t (matchTagAt_open t hno), removeTags_no_gt t hno]
    · rw [removeTags_other c t hc, ih]
      intro pre post heq
      exact h (c :: pre) post (by rw [heq]; rfl)

/-- C8: `removeTags` keeps a subsequence of the line in the original order;
it removes each run from a `<` to the next `>`; its result has no `<` with a
`>` anywhere after it, so stripping twice is the same as stripping once; and a
line without `<`, or whose first `<` has no `>` after it, is returned
unchanged. -/
theorem removeTags_spec (s : Str) :
    (removeTags s).Sublist s
      ∧ (∀ pre post : Str, removeTags s = pre ++ '<' :: post → '>' ∉ post)
      ∧ removeTags (removeTags s) = removeTags s
      ∧ ('<' ∉ s → removeTags s = s)
      ∧ (∀ pre post : Str, s = pre ++ '<' :: post → '<' ∉ pre → '>' ∉ post →
          removeTags s = s)
      ∧ (∀ pre mid rest : Str, s = pre ++ '<' :: (mid ++ '>' :: rest) → '<' ∉ pre →
          '>' ∉ mid → removeTags s = pre ++ removeTags rest) := by
  have hno := removeTags_no_tag_aux (s.length + 1) s (Nat.lt_succ_self _)
  refine ⟨removeTags_sublist_aux (s.length + 1) s (Nat.lt_succ_self _), hno,
    removeTags_fixed _ hno, ?_, ?_, ?_⟩
  · intro h
    have := removeTags_append_of_no_lt s [] h
    simpa [removeTags_nil] using this
  · intro pre post hs hpre hpost
    subst hs
    rw [removeTags_append_of_no_lt pre _ hpre,
      removeTags_of_none _ post (matchTagAt_open post hpost), removeTags_no_gt post hpost]
  · intro pre mid rest hs hpre hmid
    subst hs
    rw [removeTags_append_of_no_lt pre _ hpre, removeTags_tag mid rest hmid]

/-- Instances of C8: tags are removed, an unterminated `<` stays. -/
theorem removeTags_spec_witness :
    removeTags "Hello <b>world</b>".toList = "Hello world".toList ∧
      removeTags "a < b".toList = "a < b".toList ∧
      removeTags "x<<i>>y".toList = "x>y".toList := by
  refine ⟨by decide, ?_, by decide⟩
  exact (removeTags_spec "a < b".toList).2.2.2.2.1 "a ".toList " b".toList rfl (by decide)
    (by decide)

/-! ## LRC emitter -/

theorem emitStep_at (pre : List SubtitleBlock) (b : SubtitleBlock) (rest : List SubtitleBlock)
    (acc : List Str) :
    emitStep (pre ++ b :: rest) acc pre.length =
      acc ++ (mainLine b ::
        (match rest with
          | [] => [formatLrcTimestamp b.EndMs]
          | next :: _ => if b.EndMs < next.StartMs then [formatLrcTimestamp b.EndMs] else [])) := by
  have hb : (pre ++ b :: rest).getD pre.length ⟨0, 0, []⟩ = b := by
    rw [List.getD_eq_getElem?_getD, List.getElem?_append_right (le_refl _)]
    simp
  unfold emitStep
  simp only [hb]
  cases rest with
  | nil => simp [mainLine]
  | cons next rest1 =>
    have hn : (pre ++ b :: next :: rest1).getD (pre.length + 1) ⟨0, 0, []⟩ = next := by
      have : pre ++ b :: next :: rest1 = (pre ++ [b]) ++ next :: rest1 := by simp
      rw [this, List.getD_eq_getElem?_getD]
      have hl : pre.length + 1 = (pre ++ [b]).length := by simp
      rw [hl, List.getElem?_append_right (le_refl _)]
      simp
    have hlt : pre.length < (pre ++ b :: next :: rest1).length - 1 := by
      simp
    simp only [hn, hlt, if_true]
    by_cases hg : b.EndMs < next.StartMs
    · simp [hg, mainLine]
    · simp [hg, mainLine]

theorem foldl_emitStep (suf : List SubtitleBlock) :
    ∀ (pre : List SubtitleBlock) (acc : List Str),
      (List.range' pre.length suf.length).foldl (emitStep (pre ++ suf)) acc =
        acc ++ emitSpec suf := by
  induction suf with
  | nil => intro pre acc; simp [emitSpec]
  | cons b rest ih =>
    intro pre acc
    simp only [List.length_cons, List.range'_succ, List.foldl_cons]
    rw [emitStep_at]
    have h1 : pre ++ b :: rest = (pre ++ [b]) ++ rest := by simp
    have h2 : pre.length + 1 = (pre ++ [b]).length := by simp
    rw [h1, h2, ih (pre ++ [b])]
    cases rest with
    | nil => simp [emitSpec]
    | cons next rest1 => simp [emitSpec]

/-- C2: the lines built by `ConvertVtt` are, block by block in order, the text
line of the block (start tag, then the text entries joined with single spaces)
followed by a timestamp-only line at the end of the block exactly when the
block is the last one or ends strictly before the next one starts. -/
theorem lrcLines_eq_emitSpec (blocks : List SubtitleBlock) (hne : blocks ≠ []) :
    lrcLines blocks = emitSpec blocks
      ∧ ∀ (unicodeLower : Char → Char) (lines : List Str) (srcPath : Str),
          parseLines lines = blocks →
          (ConvertVtt unicodeLower (.opened lines none) srcPath true).2 =
            some (lrcPath unicodeLower srcPath, joinStr (emitSpec blocks) ['\n']) := by
  have h : lrcLines blocks = emitSpec blocks := by
    have := foldl_emitStep blocks [] []
    simpa [lrcLines, List.range_eq_range'] using this
  refine ⟨h, ?_⟩
  intro u lines srcPath hp
  have hlen : blocks.length ≠ 0 := by
    intro h0
    exact hne (List.length_eq_zero.mp h0)
  simp [ConvertVtt, parseSubtitleFile, hp, hlen, h]

/-- The examples of C2: the two sample blocks give four lines (a gap line
after the first block), and two blocks that touch give three lines. -/
theorem lrcLines_eq_emitSpec_witness :
    lrcLines [⟨1000, 2000, ["Hello world".toList]⟩, ⟨5000, 6000, ["Second line".toList]⟩] =
        ["[00:01.00]Hello world".toList, "[00:02.00]".toList, "[00:05.00]Second line".toList,
          "[00:06.00]".toList] ∧
      lrcLines [⟨1000, 2000, ["a".toList, "b".toList]⟩, ⟨2000, 3000, []⟩] =
        ["[00:01.00]a b".toList, "[00:02.00]".toList, "[00:03.00]".toList] := by
  constructor
  · rw [(lrcLines_eq_emitSpec _ (by decide)).1]
    decide
  · rw [(lrcLines_eq_emitSpec _ (by decide)).1]
    decide

/-! ## Read errors and the output path -/

/-- C9 (the code at the failing input): the scanner delivers a marker line and
a text line and then stops with the error `tokenTooLong`; `parseSubtitleFile`
returns the block read so far without an error, and `ConvertVtt` reports
`success` for it.  Only a failure of the open itself is returned as an
error. -/
theorem parseSubtitleFile_drops_scan_error :
    parseSubtitleFile
        (.opened ["00:00:01.000 --> 00:00:02.000".toList, "Hello".toList]
          (some .tokenTooLong)) =
        .ok [⟨1000, 2000, ["Hello".toList]⟩] ∧
      (∀ u : Char → Char,
        (ConvertVtt u
          (.opened ["00:00:01.000 --> 00:00:02.000".toList, "Hello".toList]
            (some .tokenTooLong)) "a.vtt".toList true).1 = "success".toList) ∧
      parseSubtitleFile (.opened [] (some .readFailed)) = .ok [] ∧
      parseSubtitleFile (.openFails .notExist) = .error .notExist := by
  refine ⟨congrArg Except.ok (by decide), fun u => ?_, rfl, rfl⟩
  have h : parseSubtitleFile
      (.opened ["00:00:01.000 --> 00:00:02.000".toList, "Hello".toList]
        (some .tokenTooLong)) = .ok [⟨1000, 2000, ["Hello".toList]⟩] :=
    congrArg Except.ok (by decide)
  simp only [ConvertVtt, h]
  rfl

/-- C10 (the code at the failing input): for `song.MP3.vtt` the stem
`song.MP3` ends in an audio extension in upper case; it is recognised on the
lower-cased extension, but `TrimSuffix` is given the lower-cased `.mp3`, which
is no suffix of the stem, so the output path is `song.MP3.lrc` and not
`song.lrc`.  With the extension in lower case the path is `song.lrc`. -/
theorem lrcPath_upper_case_audio_ext (u : Char → Char) :
    lrcPath u "song.MP3.vtt".toList = "song.MP3.lrc".toList ∧
      lrcPath u "song.mp3.vtt".toList = "song.lrc".toList ∧
      lrcPath u "song.srt".toList = "song.lrc".toList := by
  refine ⟨rfl, rfl, rfl⟩

end LrcKit
